import Mathlib

/-!
Verification of the core analytical engine of the TIE genetic-compiler API
(file src/app.py): the kinetic-pause estimator (analyze_kinetics), the
structured-knowledge grammar analyzer (analyze_grammar_with_brain) and the
codon optimizer (optimize_sequence).

The Python code is shallowly embedded:

* Python strings are Lean String values; per-character operations are
  performed on the underlying List Char, which fully reduces in the kernel.
* sequence.upper() is modelled per character by Char.toUpper, which matches
  the CPython behaviour on the ASCII alphabet the engine works with.
* Python dicts that the code only reads through .get with a default are
  modelled as association lists (List (key, value)) read through
  List.lookup with the same default, preserving insertion order, or as
  total functions when the dict is a defaultdict.
* The global dict GENOMIC_BRAINS is filled by I/O at startup; the value
  GENOMIC_BRAINS.get(organism) that each operation reads is passed in as an
  Option Brain argument (none models both a missing key and the empty,
  hence falsy, dict).
* Real-number arithmetic on Python floats is modelled over ℚ.  Every pause
  value produced by the formula is an exact multiple of 1/10, so the
  two-decimal rounding (Python round, half to even at exact halves) and the
  rounding modelled here agree on all reachable values.
* Runtime faults (IndexError on list indexing, ValueError of max on an
  empty sequence) are modelled by instrumented variants returning
  Except String; the plain definitions are total.
-/

namespace TIE

/-- The U→T substitution of .replace(\x27U\x27, \x27T\x27) on one character. -/
def replaceUT (c : Char) : Char :=
  if c = 'U' then 'T' else c

/-- Normalisation of one character of the input sequence: the composition of
upper-casing with the U→T substitution from
sequence.upper().replace(\x27U\x27, \x27T\x27) in the source (after upper-casing
there is no lower-case u left, so the substitution is per character). -/
def normChar (c : Char) : Char :=
  replaceUT c.toUpper

/-- The T→U re-encoding of a character, for the alphabet-invariance claim. -/
def tToU (c : Char) : Char :=
  if c = 'T' then 'U' else c

/-- sequence.upper().replace(... ) applied to a whole sequence, as the list of
its normalised characters. -/
def normalize (s : String) : List Char :=
  s.toList.map normChar

/-- The codon tokenizer
[sequence[i:i+3] for i in range(0, len(sequence), 3) if len(sequence[i:i+3]) == 3]
shared by analyze_kinetics and analyze_grammar_with_brain: the slice starts
are 3*k for k below ceil(len/3), and slices shorter than 3 are dropped. -/
def tokenize (l : List Char) : List String :=
  ((List.range ((l.length + 2) / 3)).map
    (fun k => String.mk ((l.drop (3 * k)).take 3))).filter
    (fun t => decide (t.length = 3))

/-- The dict CONSTANTES_FISICAS of the source, read through its keys.  The
source never reads a missing key; the 0 default is unreachable. -/
def CONSTANTES_FISICAS (k : String) : ℚ :=
  if k = "wG" then 0.654
  else if k = "wA" then 0.481
  else if k = "wC" then 0.334
  else if k = "wT" then 0.009
  else if k = "K" then 60
  else 0

/-- One entry of the kinetic profile: the dict holding codon_index,
codon and pause_ms = round(pausa, 2). -/
structure KineticEntry where
  codon_index : ℕ
  codon : String
  pause_ms : ℚ
deriving DecidableEq

/-- round(x, 2) over the ℚ model of Python floats. -/
def roundTo2 (q : ℚ) : ℚ :=
  ((round (q * 100) : ℤ) : ℚ) / 100

/-- analyze_kinetics of the source: tokenize the normalised sequence and map
each codon, with its index, to its pause score
(counts A * wA + counts C * wC + counts G * wG + counts T * wT) * 100 + K,
rounded to two decimals.  Counter(codon).get(x, 0) is the count of the
character x in the codon. -/
def analyze_kinetics (sequence : String) : List KineticEntry :=
  let s := normalize sequence
  let codons := tokenize s
  codons.enum.map (fun ic =>
    let codon := ic.2
    let pausa :=
      ((codon.toList.count 'A' : ℚ) * CONSTANTES_FISICAS "wA"
        + (codon.toList.count 'C' : ℚ) * CONSTANTES_FISICAS "wC"
        + (codon.toList.count 'G' : ℚ) * CONSTANTES_FISICAS "wG"
        + (codon.toList.count 'T' : ℚ) * CONSTANTES_FISICAS "wT") * 100
        + CONSTANTES_FISICAS "K"
    ⟨ic.1, codon, roundTo2 pausa⟩)

/-- The dict brain.get("categories", \x7b\x7d): its three read keys INICIADOR,
TERMINADOR and CONTINUADOR, each a list of codons, defaulting to []. -/
structure Categories where
  iniciador : List String
  terminador : List String
  continuador : List String
deriving DecidableEq

/-- One loaded knowledge model of GENOMIC_BRAINS, with the three entries that
the engine reads: brain.get("structural_rules", \x7b\x7d), a dict from a codon
to the list of codons allowed after it; brain.get("categories", \x7b\x7d); and
brain.get("full_grammar", \x7b\x7d), the subroutine-frequency table mapping a
space-joined codon key to its occurrence count. -/
structure Brain where
  structural_rules : List (String × List String)
  categories : Categories
  full_grammar : List (String × ℕ)
deriving DecidableEq

/-- structural_rules.get(codon, []). -/
def rulesGet (rules : List (String × List String)) (codon : String) : List String :=
  (rules.lookup codon).getD []

/-- One anomaly dict appended by analyze_grammar_with_brain. -/
structure Anomaly where
  position : ℕ
  subroutine : String
  type : String
deriving DecidableEq

/-- The value returned by analyze_grammar_with_brain: either the error dict
for a missing brain, carrying only the error message, or the report dict
with the keys inferred_structure and anomalies. -/
inductive GrammarResult where
  | err (msg : String)
  | report (inferred_structure : String) (anomalies : List Anomaly)
deriving DecidableEq

/-- The anomaly list carried by a grammar result; the error dict carries
none. -/
def anomaliesOf : GrammarResult → List Anomaly
  | .err _ => []
  | .report _ anomalies => anomalies

/-- Whether the result is the error dict. -/
def isErr : GrammarResult → Bool
  | .err _ => true
  | .report _ _ => false

/-- The category-inference cascade of the analyzer loop: DESCONOCIDO by
default, else the first of INICIADOR, TERMINADOR, CONTINUADOR whose codon
list contains the codon. -/
def categoryOf (cats : Categories) (codon : String) : String :=
  if codon ∈ cats.iniciador then "INICIADOR"
  else if codon ∈ cats.terminador then "TERMINADOR"
  else if codon ∈ cats.continuador then "CONTINUADOR"
  else "DESCONOCIDO"

/-- The fixed label of every anomaly the analyzer emits. -/
def transTag : String :=
  "Transición Estructural Anómala"

/-- The transition check of one iteration of the analyzer loop, at the
enumerated codon ic: when the position has a successor
(if i < len(codons) - 1), read the unchecked codons[i + 1] (in bounds, hence
rendered with the [] default of getD) and emit the anomaly dict when the
successor is not among the allowed transitions of the current codon. -/
def anomalyStep (codons : List String) (rules : List (String × List String))
    (ic : ℕ × String) : Option Anomaly :=
  if ic.1 < codons.length - 1 then
    let next_codon := codons.getD (ic.1 + 1) ""
    if next_codon ∈ rulesGet rules ic.2 then none
    else some ⟨ic.1, ic.2 ++ " -> " ++ next_codon, transTag⟩
  else none

/-- analyze_grammar_with_brain of the source.  The sequence is normalised and
tokenized; a missing (or empty, hence falsy) brain yields the error dict.
Otherwise one loop over the enumerated codons builds the inferred structure
(codon(category) words joined by spaces) and, for every position having a
successor, appends an anomaly whenever the next codon is not in
structural_rules.get(codon, []).  The single Python loop is rendered as one
map for the inferred structure and one filterMap of anomalyStep for the
appended anomalies. -/
def analyze_grammar_with_brain (sequence organism : String)
    (brain? : Option Brain) : GrammarResult :=
  let s := normalize sequence
  match brain? with
  | none =>
      .err ("El \"Cerebro\" para el organismo " ++ organism ++ " no está cargado.")
  | some brain =>
      let structural_rules := brain.structural_rules
      let cats := brain.categories
      let codons := tokenize s
      let inferred := codons.map (fun codon =>
        codon ++ "(" ++ categoryOf cats codon ++ ")")
      let anomalies := codons.enum.filterMap (anomalyStep codons structural_rules)
      .report (String.intercalate " " inferred) anomalies

/-- The dict CODON_TABLE of the source, in its source order. -/
def CODON_TABLE : List (Char × List String) :=
  [ ('F', ["TTT", "TTC"]),
    ('L', ["TTA", "TTG", "CTT", "CTC", "CTA", "CTG"]),
    ('I', ["ATT", "ATC", "ATA"]),
    ('M', ["ATG"]),
    ('V', ["GTT", "GTC", "GTA", "GTG"]),
    ('S', ["TCT", "TCC", "TCA", "TCG", "AGT", "AGC"]),
    ('P', ["CCT", "CCC", "CCA", "CCG"]),
    ('T', ["ACT", "ACC", "ACA", "ACG"]),
    ('A', ["GCT", "GCC", "GCA", "GCG"]),
    ('Y', ["TAT", "TAC"]),
    ('H', ["CAT", "CAC"]),
    ('Q', ["CAA", "CAG"]),
    ('N', ["AAT", "AAC"]),
    ('K', ["AAG", "AAA"]),
    ('D', ["GAT", "GAC"]),
    ('E', ["GAA", "GAG"]),
    ('C', ["TGT", "TGC"]),
    ('W', ["TGG"]),
    ('R', ["CGT", "CGC", "CGA", "CGG", "AGA", "AGG"]),
    ('G', ["GGT", "GGC", "GGA", "GGG"]),
    ('*', ["TAA", "TAG", "TGA"]) ]

/-- CODON_TABLE.get(aa, []). -/
def tableGet (aa : Char) : List String :=
  (CODON_TABLE.lookup aa).getD []

/-- Python str.split(" ") over the characters of a subroutine key: split at
every single space, keeping empty pieces, with [""] on empty input. -/
def splitSpacesAux : List Char → List Char → List String
  | [], cur => [String.mk cur.reverse]
  | c :: rest, cur =>
    if c = ' ' then String.mk cur.reverse :: splitSpacesAux rest []
    else splitSpacesAux rest (c :: cur)

/-- sub.split(" ") of the source. -/
def splitSpaces (s : String) : List String :=
  splitSpacesAux s.toList []

/-- The derived single-codon frequency table of optimize_sequence:
codon_freq = defaultdict(int); for sub, count in grammar.items():
for codon in sub.split(" "): codon_freq[codon] += count.
The defaultdict is modelled as a total function that is 0 outside the
updated keys. -/
def codonFreq (grammar : List (String × ℕ)) : String → ℕ :=
  grammar.foldl (fun freq kv =>
    (splitSpaces kv.1).foldl (fun f codon =>
      fun x => if x = codon then f x + kv.2 else f x) freq)
    (fun _ => 0)

/-- CPython max(xs, key=k): scan left to right keeping the current best and
replacing it only on a strictly greater key, so the first element attaining
the maximal key wins; None on an empty list models the ValueError. -/
def pyMaxBy {α : Type} (key : α → ℕ) : List α → Option α
  | [] => none
  | x :: xs => some (xs.foldl (fun best c => if key c > key best then c else best) x)

/-- One iteration of the optimizer loop: look the amino-acid symbol up in
the codon table; on an empty lookup the continue skips the symbol (pyMaxBy
is none exactly on the empty list), otherwise append the codon of maximal
derived frequency. -/
def optimizeStep (freq : String → ℕ) (optimized_dna : String) (aa : Char) : String :=
  let possible_codons := tableGet aa
  match pyMaxBy freq possible_codons with
  | none => optimized_dna
  | some best_codon => optimized_dna ++ best_codon

/-- optimize_sequence of the source.  A missing brain yields the literal
error string the source returns.  Otherwise the protein is upper-cased and
each recognised amino-acid symbol contributes the synonymous codon of
maximal derived frequency; an unrecognised symbol is skipped by the
continue. -/
def optimize_sequence (protein_sequence : String) (brain? : Option Brain) : String :=
  match brain? with
  | none => "Error: Cerebro para este organismo no disponible."
  | some brain =>
      let grammar := brain.full_grammar
      let freq := codonFreq grammar
      (protein_sequence.toList.map Char.toUpper).foldl (optimizeStep freq) ""

/-- Instrumented anomaly loop: the unchecked Python indexing codons[i + 1] is
performed through List.get?, turning an out-of-bounds access into the
IndexError value instead of relying on a default. -/
def anomaliesE (codons : List String) (rules : List (String × List String)) :
    Except String (List Anomaly) :=
  codons.enum.foldlM (fun acc ic =>
    if ic.1 < codons.length - 1 then
      match codons.get? (ic.1 + 1) with
      | none => Except.error "IndexError: list index out of range"
      | some next_codon =>
          pure (if next_codon ∈ rulesGet rules ic.2 then acc
            else acc ++ [⟨ic.1, ic.2 ++ " -> " ++ next_codon, transTag⟩])
    else pure acc) []

/-- Instrumented analyze_grammar_with_brain, propagating a runtime fault of
the anomaly loop. -/
def analyze_grammar_with_brainE (sequence organism : String)
    (brain? : Option Brain) : Except String GrammarResult :=
  let s := normalize sequence
  match brain? with
  | none =>
      pure (.err ("El \"Cerebro\" para el organismo " ++ organism ++ " no está cargado."))
  | some brain =>
      let codons := tokenize s
      let inferred := codons.map (fun codon =>
        codon ++ "(" ++ categoryOf brain.categories codon ++ ")")
      (anomaliesE codons brain.structural_rules).map
        (fun anomalies => .report (String.intercalate " " inferred) anomalies)

/-- Instrumented optimizer iteration: max on an empty sequence raises
ValueError in Python; the continue guard makes the branch unreachable. -/
def optimizeStepE (freq : String → ℕ) (optimized_dna : String) (aa : Char) :
    Except String String :=
  let possible_codons := tableGet aa
  if possible_codons = [] then pure optimized_dna
  else
    match pyMaxBy freq possible_codons with
    | none => Except.error "ValueError: max arg is an empty sequence"
    | some best_codon => pure (optimized_dna ++ best_codon)

/-- Instrumented optimize_sequence, propagating the ValueError of max. -/
def optimize_sequenceE (protein_sequence : String) (brain? : Option Brain) :
    Except String String :=
  match brain? with
  | none => pure "Error: Cerebro para este organismo no disponible."
  | some brain =>
      let freq := codonFreq brain.full_grammar
      (protein_sequence.toList.map Char.toUpper).foldlM (optimizeStepE freq) ""

/-- Modelled from the specification wording of the grammar analyzer actually
implemented in the source: one anomaly for every codon position that has a
successor whose transition violates the structural rules. -/
def transitionAnomaliesSpec (codons : List String)
    (rules : List (String × List String)) : List Anomaly :=
  (List.range codons.length).filterMap (fun i =>
    match codons.get? i, codons.get? (i + 1) with
    | some codon, some next_codon =>
        if next_codon ∈ rulesGet rules codon then none
        else some ⟨i, codon ++ " -> " ++ next_codon, transTag⟩
    | _, _ => none)

/-- Formalisation of the redundancy-collapse behaviour asserted by claim C2
for the returned anomaly list.  Under the claimed discipline the list is
sorted by starting position strictly ascending, and two accepted anomalies
carrying the same length label are windows of one common length of at least
two codons, the later of which must start past the span covered by the
earlier, hence at least two positions further on. -/
def claimC2Collapse (r : GrammarResult) : Prop :=
  (anomaliesOf r).Pairwise (fun a b =>
    a.position < b.position ∧ (a.type = b.type → a.position + 2 ≤ b.position))

instance (r : GrammarResult) : Decidable (claimC2Collapse r) := by
  unfold claimC2Collapse
  exact inferInstance

/-- The first element of the list attaining the maximal key: the selection
rule stated by claim C5 (maximum derived frequency, ties broken by first
occurrence in the codon list). -/
def specSelect {α : Type} (key : α → ℕ) (l : List α) : Option α :=
  l.find? (fun c => l.all (fun d => decide (key d ≤ key c)))

/-- Empty category table, for concrete scenarios. -/
def cats0 : Categories :=
  ⟨[], [], []⟩

/-- A brain whose subroutine-frequency grammar is exactly the grammar of the
concrete scenario of claim C1 and whose structural rules are empty. -/
def brainScenario : Brain :=
  ⟨[], cats0, [("AAA AAA", 5), ("AAA CCC", 1)]⟩

/-- A loaded brain with no structural rules at all. -/
def brainEmpty : Brain :=
  ⟨[], cats0, []⟩

/-- A brain whose derived single-codon frequencies are AAA ↦ 5 and AAG ↦ 1,
the concrete scenario of claim C5. -/
def brainK : Brain :=
  ⟨[], cats0, [("AAA AAG", 1), ("AAA AAA", 2)]⟩

/-- Two brains for the C10 witness: equal structural rules and categories,
different subroutine-frequency grammars. -/
def brainRules1 : Brain :=
  ⟨[("AAA", ["CCC"])], cats0, [("AAA AAA", 7)]⟩

/-- Second C10 witness brain; see brainRules1. -/
def brainRules2 : Brain :=
  ⟨[("AAA", ["CCC"])], cats0, [("CCC CCC", 1), ("AAA CCC", 4)]⟩

end TIE

namespace TIE

theorem mk_length (l : List Char) : (String.mk l).length = l.length := rfl

theorem range_filter_lt (n m : ℕ) :
    (List.range n).filter (fun k => decide (k < m)) = List.range (min m n) := by
  induction n with
  | zero => simp
  | succ n ih =>
      rw [List.range_succ, List.filter_append, ih]
      by_cases h : n < m
      · have h1 : min m (n + 1) = n + 1 := by omega
        have h2 : min m n = n := by omega
        simp [h, h1, h2, List.range_succ]
      · have h1 : min m (n + 1) = min m n := by omega
        simp [h, h1]

theorem tokenize_eq (l : List Char) :
    tokenize l =
      (List.range (l.length / 3)).map (fun k => String.mk ((l.drop (3 * k)).take 3)) := by
  unfold tokenize
  rw [List.filter_map]
  have hp : ∀ k ∈ List.range ((l.length + 2) / 3),
      ((fun t => decide (t.length = 3)) ∘ fun k => String.mk ((l.drop (3 * k)).take 3)) k
        = (fun k => decide (k < l.length / 3)) k := by
    intro k _
    simp only [Function.comp, mk_length, List.length_take, List.length_drop]
    rw [decide_eq_decide]
    omega
  rw [List.filter_congr hp, range_filter_lt]
  have : min (l.length / 3) ((l.length + 2) / 3) = l.length / 3 := by omega
  rw [this]

theorem tokenize_length (l : List Char) : (tokenize l).length = l.length / 3 := by
  rw [tokenize_eq]; simp

theorem normalize_length (s : String) : (normalize s).length = s.length := by
  rw [normalize, List.length_map]
  rfl

theorem toNat_ofNat_valid {n : ℕ} (h : n < 55296) : (Char.ofNat n).toNat = n := by
  rw [Char.ofNat, dif_pos (Or.inl h : n.isValidChar)]
  rfl

theorem toUpper_toLower (c : Char) : c.toLower.toUpper = c.toUpper := by
  by_cases h : c.toNat ≥ 65 ∧ c.toNat ≤ 90
  · have hlow : c.toLower = Char.ofNat (c.toNat + 32) := by
      rw [Char.toLower, if_pos h]
    have hval : (Char.ofNat (c.toNat + 32)).toNat = c.toNat + 32 :=
      toNat_ofNat_valid (by omega)
    have hupl : c.toLower.toUpper = Char.ofNat c.toNat := by
      rw [hlow, Char.toUpper, if_pos (by omega : (Char.ofNat (c.toNat + 32)).toNat ≥ 97 ∧ (Char.ofNat (c.toNat + 32)).toNat ≤ 122), hval,
        (by omega : c.toNat + 32 - 32 = c.toNat)]
    have hupr : c.toUpper = c := by
      rw [Char.toUpper, if_neg (by omega : ¬ (c.toNat ≥ 97 ∧ c.toNat ≤ 122))]
    rw [hupl, hupr, Char.ofNat_toNat]
  · have hlow : c.toLower = c := by
      rw [Char.toLower, if_neg h]
    rw [hlow]

theorem enumFrom_filterMap_eq {β : Type} (f : ℕ × String → Option β) (g : ℕ → Option β)
    (l : List String) :
    ∀ (s : ℕ), (∀ k (hk : k < l.length), f (s + k, l.get ⟨k, hk⟩) = g (s + k)) →
      (List.enumFrom s l).filterMap f = (List.range' s l.length).filterMap g := by
  induction l with
  | nil => intro s _; rfl
  | cons c cs ih =>
      intro s h
      have h0 : f (s, c) = g s := by
        have := h 0 (by simp)
        simpa using this
      have hrec := ih (s + 1) (fun k hk => by
        have := h (k + 1) (by simpa using Nat.succ_lt_succ hk)
        have harith : s + (k + 1) = s + 1 + k := by omega
        rw [harith] at this
        simpa using this)
      simp only [List.enumFrom, List.length_cons, List.range'_succ, List.filterMap_cons, h0, hrec]

theorem anomalies_characterization (codons : List String)
    (rules : List (String × List String)) :
    codons.enum.filterMap (anomalyStep codons rules)
      = transitionAnomaliesSpec codons rules := by
  unfold transitionAnomaliesSpec
  rw [List.enum_eq_enumFrom, List.range_eq_range']
  apply enumFrom_filterMap_eq _ _ codons 0
  intro k hk
  simp only [Nat.zero_add]
  unfold anomalyStep
  by_cases hk1 : k < codons.length - 1
  · have hk2 : k + 1 < codons.length := by omega
    have hget : codons.get? k = some (codons.get ⟨k, hk⟩) := List.get?_eq_get hk
    have hget1 : codons.get? (k + 1) = some (codons.get ⟨k + 1, hk2⟩) := List.get?_eq_get hk2
    have hgetD : codons.getD (k + 1) "" = codons.get ⟨k + 1, hk2⟩ := by
      rw [List.getD_eq_getElem?_getD, ← List.get?_eq_getElem?, hget1]
      rfl
    simp only [hk1, if_true, hget, hget1, hgetD]
  · have hnone : codons.get? (k + 1) = none := by
      rw [List.get?_eq_none]
      omega
    simp only [hk1, if_false, hnone]
    rw [List.get?_eq_get hk]

theorem spec_inner_position (codons : List String) (rules : List (String × List String))
    (i : ℕ) (a : Anomaly)
    (h : (match codons.get? i, codons.get? (i + 1) with
      | some codon, some next_codon =>
          if next_codon ∈ rulesGet rules codon then none
          else some ⟨i, codon ++ " -> " ++ next_codon, transTag⟩
      | _, _ => none) = some a) :
    a.position = i ∧ a.type = transTag := by
  rcases hci : codons.get? i with _ | codon
  · simp only [hci] at h
    exact absurd h (by simp)
  · rcases hcn : codons.get? (i + 1) with _ | next_codon
    · simp only [hci, hcn] at h
      exact absurd h (by simp)
    · simp only [hci, hcn] at h
      by_cases hmem : next_codon ∈ rulesGet rules codon
      · simp only [hmem, if_true] at h
        exact absurd h (by simp)
      · simp only [hmem, if_false] at h
        cases h
        exact ⟨rfl, rfl⟩

theorem anomalies_sorted (codons : List String) (rules : List (String × List String)) :
    (transitionAnomaliesSpec codons rules).Pairwise (fun a b => a.position < b.position) := by
  unfold transitionAnomaliesSpec
  refine List.Pairwise.filterMap _ ?_ (List.pairwise_lt_range _)
  intro i j hij a ha b hb
  have hi := (spec_inner_position codons rules i a ha).1
  have hj := (spec_inner_position codons rules j b hb).1
  omega

theorem anomalies_type (codons : List String) (rules : List (String × List String)) :
    ∀ a ∈ transitionAnomaliesSpec codons rules, a.type = transTag := by
  intro a ha
  unfold transitionAnomaliesSpec at ha
  rw [List.mem_filterMap] at ha
  obtain ⟨i, _, hi⟩ := ha
  exact (spec_inner_position codons rules i a hi).2

theorem anomaliesOf_analyze (sequence organism : String) (b : Brain) :
    anomaliesOf (analyze_grammar_with_brain sequence organism (some b)) =
      transitionAnomaliesSpec (tokenize (normalize sequence)) b.structural_rules := by
  show anomaliesOf (.report _ _) = _
  rw [anomaliesOf]
  exact anomalies_characterization _ _

theorem foldlM_eq_ok {α β : Type} (f : β → α → Except String β) (g : β → α → β) :
    ∀ (l : List α), (∀ x ∈ l, ∀ acc, f acc x = .ok (g acc x)) →
      ∀ init, l.foldlM f init = .ok (l.foldl g init) := by
  intro l
  induction l with
  | nil => intro _ init; rfl
  | cons x xs ih =>
      intro h init
      rw [List.foldlM_cons, List.foldl_cons, h x (by simp)]
      show (Except.ok (g init x)) >>= (fun b => xs.foldlM f b) = _
      show xs.foldlM f (g init x) = _
      exact ih (fun y hy acc => h y (List.mem_cons_of_mem x hy) acc) (g init x)

theorem foldl_opt_append {α β : Type} (h : α → Option β) :
    ∀ (l : List α) (acc : List β),
      l.foldl (fun a x => (h x).elim a (fun b => a ++ [b])) acc
        = acc ++ l.filterMap h := by
  intro l
  induction l with
  | nil => intro acc; simp
  | cons x xs ih =>
      intro acc
      rw [List.foldl_cons]
      cases hx : h x with
      | none =>
          rw [List.filterMap_cons_none hx]
          exact ih acc
      | some b =>
          rw [List.filterMap_cons_some hx]
          show xs.foldl _ (acc ++ [b]) = acc ++ b :: List.filterMap h xs
          rw [ih (acc ++ [b])]
          simp

theorem anomaliesE_ok (codons : List String) (rules : List (String × List String)) :
    anomaliesE codons rules = .ok (codons.enum.filterMap (anomalyStep codons rules)) := by
  unfold anomaliesE
  rw [foldlM_eq_ok _
    (fun acc ic => (anomalyStep codons rules ic).elim acc (fun b => acc ++ [b]))
    codons.enum ?_ []]
  · rw [foldl_opt_append]
    rfl
  · intro ic _ acc
    unfold anomalyStep
    by_cases hg : ic.1 < codons.length - 1
    · have hlt : ic.1 + 1 < codons.length := by omega
      have hget : codons.get? (ic.1 + 1) = some (codons.get ⟨ic.1 + 1, hlt⟩) :=
        List.get?_eq_get hlt
      have hgetD : codons.getD (ic.1 + 1) "" = codons.get ⟨ic.1 + 1, hlt⟩ := by
        rw [List.getD_eq_getElem?_getD, ← List.get?_eq_getElem?, hget]
        rfl
      rw [if_pos hg, hget]
      simp only [if_pos hg, hgetD]
      by_cases hmem : codons.get ⟨ic.1 + 1, hlt⟩ ∈ rulesGet rules ic.2
      · simp only [hmem, if_true]
        rfl
      · simp only [hmem, if_false]
        rfl
    · simp only [if_neg hg]
      rfl

end TIE

namespace TIE

theorem pyMaxBy_eq_none_iff {α : Type} (key : α → ℕ) (l : List α) :
    pyMaxBy key l = none ↔ l = [] := by
  cases l with
  | nil => simp [pyMaxBy]
  | cons x xs => simp [pyMaxBy]

theorem foldl_best_mem {α : Type} (key : α → ℕ) :
    ∀ (xs : List α) (b : α),
      xs.foldl (fun best c => if key c > key best then c else best) b ∈ b :: xs := by
  intro xs
  induction xs with
  | nil => intro b; simp
  | cons c cs ih =>
      intro b
      rw [List.foldl_cons]
      by_cases h : key c > key b
      · rw [if_pos h]
        have := ih c
        rcases List.mem_cons.mp this with h1 | h1
        · rw [h1]; simp
        · exact List.mem_cons_of_mem _ (List.mem_cons_of_mem _ h1)
      · rw [if_neg h]
        have := ih b
        rcases List.mem_cons.mp this with h1 | h1
        · rw [h1]; simp
        · exact List.mem_cons_of_mem _ (List.mem_cons_of_mem _ h1)

theorem pyMaxBy_mem {α : Type} (key : α → ℕ) (l : List α) (x : α)
    (h : pyMaxBy key l = some x) : x ∈ l := by
  cases l with
  | nil => cases h
  | cons c cs =>
      rw [pyMaxBy] at h
      cases h
      exact foldl_best_mem key cs c

theorem optimizeStepE_ok (freq : String → ℕ) (aa : Char) (acc : String) :
    optimizeStepE freq acc aa = .ok (optimizeStep freq acc aa) := by
  unfold optimizeStep optimizeStepE
  by_cases h : tableGet aa = []
  · rw [if_pos h, h]
    rfl
  · rw [if_neg h]
    rcases hm : pyMaxBy freq (tableGet aa) with _ | best
    · exact absurd ((pyMaxBy_eq_none_iff freq (tableGet aa)).mp hm) h
    · simp only [hm]
      rfl

theorem optimize_sequenceE_ok (protein_sequence : String) (brain? : Option Brain) :
    optimize_sequenceE protein_sequence brain? =
      .ok (optimize_sequence protein_sequence brain?) := by
  cases brain? with
  | none => rfl
  | some brain =>
      unfold optimize_sequence optimize_sequenceE
      exact foldlM_eq_ok _ _ _
        (fun aa _ acc => optimizeStepE_ok (codonFreq brain.full_grammar) aa acc) ""

theorem analyze_grammar_with_brainE_ok (sequence organism : String)
    (brain? : Option Brain) :
    analyze_grammar_with_brainE sequence organism brain? =
      .ok (analyze_grammar_with_brain sequence organism brain?) := by
  cases brain? with
  | none => rfl
  | some brain =>
      unfold analyze_grammar_with_brain analyze_grammar_with_brainE
      simp only [anomaliesE_ok]
      rfl

theorem analyze_kinetics_length (sequence : String) :
    (analyze_kinetics sequence).length = sequence.length / 3 := by
  unfold analyze_kinetics
  rw [List.length_map, List.enum_length, tokenize_length, normalize_length]

end TIE

namespace TIE

theorem wA_eq : CONSTANTES_FISICAS "wA" = 0.481 := rfl

theorem wC_eq : CONSTANTES_FISICAS "wC" = 0.334 := rfl

theorem wG_eq : CONSTANTES_FISICAS "wG" = 0.654 := rfl

theorem wT_eq : CONSTANTES_FISICAS "wT" = 0.009 := rfl

theorem kConst_eq : CONSTANTES_FISICAS "K" = 60 := rfl

theorem analyze_kinetics_map_codon (sequence : String) :
    (analyze_kinetics sequence).map KineticEntry.codon = tokenize (normalize sequence) := by
  unfold analyze_kinetics
  rw [List.map_map]
  have : (KineticEntry.codon ∘ fun ic : ℕ × String =>
      (⟨ic.1, ic.2, roundTo2 ((((ic.2.toList.count 'A' : ℚ)) * CONSTANTES_FISICAS "wA"
        + ((ic.2.toList.count 'C' : ℚ)) * CONSTANTES_FISICAS "wC"
        + ((ic.2.toList.count 'G' : ℚ)) * CONSTANTES_FISICAS "wG"
        + ((ic.2.toList.count 'T' : ℚ)) * CONSTANTES_FISICAS "wT") * 100
        + CONSTANTES_FISICAS "K")⟩ : KineticEntry)) = Prod.snd := rfl
  rw [this, List.enum_eq_enumFrom, List.enumFrom_map_snd]

theorem analyze_kinetics_map_index (sequence : String) :
    (analyze_kinetics sequence).map KineticEntry.codon_index
      = List.range (tokenize (normalize sequence)).length := by
  unfold analyze_kinetics
  rw [List.map_map]
  have : (KineticEntry.codon_index ∘ fun ic : ℕ × String =>
      (⟨ic.1, ic.2, roundTo2 ((((ic.2.toList.count 'A' : ℚ)) * CONSTANTES_FISICAS "wA"
        + ((ic.2.toList.count 'C' : ℚ)) * CONSTANTES_FISICAS "wC"
        + ((ic.2.toList.count 'G' : ℚ)) * CONSTANTES_FISICAS "wG"
        + ((ic.2.toList.count 'T' : ℚ)) * CONSTANTES_FISICAS "wT") * 100
        + CONSTANTES_FISICAS "K")⟩ : KineticEntry)) = Prod.fst := rfl
  rw [this, List.enum_eq_enumFrom, List.enumFrom_map_fst, List.range_eq_range']

theorem analyze_kinetics_map_pause (sequence : String) :
    (analyze_kinetics sequence).map KineticEntry.pause_ms
      = (tokenize (normalize sequence)).map (fun codon =>
          roundTo2 (((codon.toList.count 'A' : ℚ) * 0.481
            + (codon.toList.count 'C' : ℚ) * 0.334
            + (codon.toList.count 'G' : ℚ) * 0.654
            + (codon.toList.count 'T' : ℚ) * 0.009) * 100 + 60)) := by
  unfold analyze_kinetics
  rw [List.map_map]
  have : (KineticEntry.pause_ms ∘ fun ic : ℕ × String =>
      (⟨ic.1, ic.2, roundTo2 ((((ic.2.toList.count 'A' : ℚ)) * CONSTANTES_FISICAS "wA"
        + ((ic.2.toList.count 'C' : ℚ)) * CONSTANTES_FISICAS "wC"
        + ((ic.2.toList.count 'G' : ℚ)) * CONSTANTES_FISICAS "wG"
        + ((ic.2.toList.count 'T' : ℚ)) * CONSTANTES_FISICAS "wT") * 100
        + CONSTANTES_FISICAS "K")⟩ : KineticEntry))
      = ((fun codon : String =>
          roundTo2 (((codon.toList.count 'A' : ℚ) * 0.481
            + (codon.toList.count 'C' : ℚ) * 0.334
            + (codon.toList.count 'G' : ℚ) * 0.654
            + (codon.toList.count 'T' : ℚ) * 0.009) * 100 + 60)) ∘ Prod.snd) := rfl
  rw [this, ← List.map_map, List.enum_eq_enumFrom, List.enumFrom_map_snd]

end TIE

namespace TIE

theorem kinetics_gct :
    (analyze_kinetics "GCT").map KineticEntry.pause_ms = [159.7] := by
  rw [analyze_kinetics_map_pause]
  rw [(by decide : tokenize (normalize "GCT") = ["GCT"])]
  rw [List.map_cons, List.map_nil]
  rw [(by decide : ("GCT".toList.count 'A') = 0),
    (by decide : ("GCT".toList.count 'C') = 1),
    (by decide : ("GCT".toList.count 'G') = 1),
    (by decide : ("GCT".toList.count 'T') = 1)]
  norm_num [roundTo2, round_eq]

theorem kinetics_congr {s t : String} (h : normalize s = normalize t) :
    analyze_kinetics s = analyze_kinetics t := by
  unfold analyze_kinetics
  rw [h]

theorem normalize_eq_of_upper_eq {s t : String}
    (h : s.toList.map Char.toUpper = t.toList.map Char.toUpper) :
    normalize s = normalize t := by
  have hb : ∀ u : String, normalize u = (u.toList.map Char.toUpper).map replaceUT := by
    intro u
    rw [normalize, List.map_map]
    rfl
  rw [hb s, hb t, h]

theorem normalize_map_char (f : Char → Char) (hf : ∀ c, normChar (f c) = normChar c)
    (s : String) : normalize (String.mk (s.toList.map f)) = normalize s := by
  rw [normalize, normalize]
  show (s.toList.map f).map normChar = _
  rw [List.map_map]
  exact List.map_congr_left (fun c _ => hf c)

theorem normChar_toLower (c : Char) : normChar c.toLower = normChar c := by
  rw [normChar, normChar, toUpper_toLower]

theorem normChar_tToU (c : Char) : normChar (tToU c) = normChar c := by
  rw [tToU]
  by_cases h : c = 'T'
  · rw [if_pos h, h]
    decide
  · rw [if_neg h]

theorem normChar_replaceUT (c : Char) : normChar (replaceUT c) = normChar c := by
  rw [replaceUT]
  by_cases h : c = 'U'
  · rw [if_pos h, h]
    decide
  · rw [if_neg h]

end TIE

namespace TIE

theorem lookup_mem {α β : Type} [BEq α] [LawfulBEq α] {l : List (α × β)} {a : α} {b : β}
    (h : l.lookup a = some b) : (a, b) ∈ l := by
  rw [List.lookup_eq_some_iff] at h
  obtain ⟨l₁, l₂, rfl, _⟩ := h
  exact List.mem_append_right _ (List.mem_cons_self _ _)

theorem codon_table_entries :
    ∀ p ∈ CODON_TABLE, p.2 ≠ [] ∧ ∀ c ∈ p.2, String.length c = 3 := by decide

theorem optimizeStep_length (freq : String → ℕ) (acc : String) (aa : Char) :
    (optimizeStep freq acc aa).length
      = acc.length + 3 * (if (CODON_TABLE.lookup aa).isSome then 1 else 0) := by
  unfold optimizeStep
  rcases hlk : CODON_TABLE.lookup aa with _ | codons
  · have htg : tableGet aa = [] := by rw [tableGet, hlk]; rfl
    simp only [htg]
    rw [(by rfl : pyMaxBy freq ([] : List String) = none)]
    simp [hlk]
  · have htg : tableGet aa = codons := by rw [tableGet, hlk]; rfl
    have hfacts := codon_table_entries (aa, codons) (lookup_mem hlk)
    simp only [htg]
    rcases hm : pyMaxBy freq codons with _ | best
    · exact absurd ((pyMaxBy_eq_none_iff freq codons).mp hm) hfacts.1
    · simp only [hm]
      have hbest : best ∈ codons := pyMaxBy_mem freq codons best hm
      have hlen : best.length = 3 := hfacts.2 best hbest
      rw [String.length_append, hlen]
      simp [hlk]

theorem optimize_foldl_length (freq : String → ℕ) :
    ∀ (l : List Char) (acc : String),
      (l.foldl (optimizeStep freq) acc).length
        = acc.length + 3 * l.countP (fun aa => (CODON_TABLE.lookup aa).isSome) := by
  intro l
  induction l with
  | nil => intro acc; simp
  | cons aa l ih =>
      intro acc
      rw [List.foldl_cons, ih (optimizeStep freq acc aa), optimizeStep_length,
        List.countP_cons]
      by_cases h : (CODON_TABLE.lookup aa).isSome
      · simp [h]
        ring
      · simp [h]

theorem bump_foldl (n : ℕ) (c : String) :
    ∀ (tokens : List String) (f : String → ℕ),
      (tokens.foldl (fun f codon => fun x => if x = codon then f x + n else f x) f) c
        = f c + n * tokens.count c := by
  intro tokens
  induction tokens with
  | nil => intro f; simp
  | cons t ts ih =>
      intro f
      rw [List.foldl_cons, ih, List.count_cons]
      by_cases h : c = t
      · subst h
        simp
        ring
      · have hne : (t == c) = false := by
          simp
          exact fun he => h he.symm
        simp [h, hne]

theorem codonFreq_eq_sum (grammar : List (String × ℕ)) (c : String) :
    codonFreq grammar c
      = (grammar.map (fun kv => kv.2 * (splitSpaces kv.1).count c)).sum := by
  unfold codonFreq
  suffices hgen : ∀ (g : List (String × ℕ)) (f : String → ℕ),
      (g.foldl (fun freq kv =>
        (splitSpaces kv.1).foldl (fun f codon =>
          fun x => if x = codon then f x + kv.2 else f x) freq) f) c
        = f c + (g.map (fun kv => kv.2 * (splitSpaces kv.1).count c)).sum by
    rw [hgen]
    simp
  intro g
  induction g with
  | nil => intro f; simp
  | cons kv g ih =>
      intro f
      rw [List.foldl_cons, ih, bump_foldl, List.map_cons, List.sum_cons]
      ring

end TIE

namespace TIE

theorem find?_congr_mem {α : Type} (p q : α → Bool) :
    ∀ (l : List α), (∀ x ∈ l, p x = q x) → l.find? p = l.find? q := by
  intro l
  induction l with
  | nil => intro _; rfl
  | cons x xs ih =>
      intro h
      have hx := h x (List.mem_cons_self _ _)
      cases hpx : p x with
      | true =>
          rw [List.find?_cons_of_pos _ hpx, List.find?_cons_of_pos _ (hx ▸ hpx)]
      | false =>
          rw [List.find?_cons_of_neg _ (by simp [hpx]),
            List.find?_cons_of_neg _ (by simp [← hx, hpx])]
          exact ih (fun y hy => h y (List.mem_cons_of_mem _ hy))

theorem allLe_true_iff (key : String → ℕ) (l : List String) (e : String) :
    (l.all (fun d => decide (key d ≤ key e)) = true) ↔ ∀ d ∈ l, key d ≤ key e := by
  rw [List.all_eq_true]
  simp

theorem allLe_false_iff (key : String → ℕ) (l : List String) (e : String) :
    (l.all (fun d => decide (key d ≤ key e)) = false) ↔ ∃ d ∈ l, key e < key d := by
  rw [List.all_eq_false]
  simp

theorem foldl_max_eq_find? (key : String → ℕ) :
    ∀ (xs : List String) (b : String),
      some (xs.foldl (fun best c => if key c > key best then c else best) b) =
        (b :: xs).find? (fun e => (b :: xs).all (fun d => decide (key d ≤ key e))) := by
  intro xs
  induction xs with
  | nil =>
      intro b
      rw [List.find?_cons_of_pos _ (by rw [allLe_true_iff]; simp)]
      rfl
  | cons c cs ih =>
      intro b
      rw [List.foldl_cons]
      by_cases hcb : key c > key b
      · rw [if_pos hcb, ih c]
        have hbfail : ((b :: c :: cs).all (fun d => decide (key d ≤ key b))) = false := by
          rw [allLe_false_iff]
          exact ⟨c, List.mem_cons_of_mem _ (List.mem_cons_self _ _), hcb⟩
        rw [List.find?_cons_of_neg
          (p := fun e => (b :: c :: cs).all (fun d => decide (key d ≤ key e))) _
          (by simp [hbfail])]
        apply find?_congr_mem
        intro e he
        cases hpa : ((c :: cs).all (fun d => decide (key d ≤ key e))) with
        | true =>
            have hprop := (allLe_true_iff key (c :: cs) e).mp hpa
            have hce : key c ≤ key e := hprop c (List.mem_cons_self _ _)
            symm
            rw [allLe_true_iff]
            intro d hd
            rcases List.mem_cons.mp hd with rfl | hd'
            · omega
            · exact hprop d hd'
        | false =>
            have hprop := (allLe_false_iff key (c :: cs) e).mp hpa
            symm
            rw [allLe_false_iff]
            obtain ⟨d, hd, hdk⟩ := hprop
            exact ⟨d, List.mem_cons_of_mem _ hd, hdk⟩
      · rw [if_neg hcb]
        have hcb' : key c ≤ key b := by omega
        rw [ih b]
        have hhead : ((b :: c :: cs).all (fun d => decide (key d ≤ key b)))
            = ((b :: cs).all (fun d => decide (key d ≤ key b))) := by
          cases h1 : ((b :: cs).all (fun d => decide (key d ≤ key b))) with
          | true =>
              have hprop := (allLe_true_iff key (b :: cs) b).mp h1
              rw [allLe_true_iff]
              intro d hd
              rcases List.mem_cons.mp hd with rfl | hd'
              · omega
              · rcases List.mem_cons.mp hd' with rfl | hd''
                · omega
                · exact hprop d (List.mem_cons_of_mem _ hd'')
          | false =>
              have hprop := (allLe_false_iff key (b :: cs) b).mp h1
              rw [allLe_false_iff]
              obtain ⟨d, hd, hdk⟩ := hprop
              rcases List.mem_cons.mp hd with rfl | hd'
              · omega
              · exact ⟨d, List.mem_cons_of_mem _ (List.mem_cons_of_mem _ hd'), hdk⟩
        cases hpc : ((b :: cs).all (fun d => decide (key d ≤ key b))) with
        | true =>
            rw [List.find?_cons_of_pos
              (p := fun e => (b :: cs).all (fun d => decide (key d ≤ key e))) _ hpc]
            rw [List.find?_cons_of_pos
              (p := fun e => (b :: c :: cs).all (fun d => decide (key d ≤ key e))) _
              (by simp [hhead, hpc])]
        | false =>
            have hwit : ∃ d ∈ cs, key b < key d := by
              have hprop := (allLe_false_iff key (b :: cs) b).mp hpc
              obtain ⟨d, hd, hdk⟩ := hprop
              rcases List.mem_cons.mp hd with rfl | hd'
              · omega
              · exact ⟨d, hd', hdk⟩
            obtain ⟨d, hd, hdk⟩ := hwit
            have hcfail : ((b :: c :: cs).all (fun e => decide (key e ≤ key c))) = false := by
              rw [allLe_false_iff]
              exact ⟨d, List.mem_cons_of_mem _ (List.mem_cons_of_mem _ hd), by omega⟩
            rw [List.find?_cons_of_neg
              (p := fun e => (b :: cs).all (fun d => decide (key d ≤ key e))) _
              (by simp [hpc])]
            rw [List.find?_cons_of_neg
              (p := fun e => (b :: c :: cs).all (fun d => decide (key d ≤ key e))) _
              (by simp [hhead, hpc])]
            rw [List.find?_cons_of_neg
              (p := fun e => (b :: c :: cs).all (fun d => decide (key d ≤ key e))) _
              (by simp [hcfail])]
            apply find?_congr_mem
            intro e he
            cases hpe : ((b :: cs).all (fun x => decide (key x ≤ key e))) with
            | true =>
                have hprop := (allLe_true_iff key (b :: cs) e).mp hpe
                symm
                rw [allLe_true_iff]
                intro x hx
                rcases List.mem_cons.mp hx with rfl | hx'
                · exact hprop x (List.mem_cons_self _ _)
                · rcases List.mem_cons.mp hx' with rfl | hx''
                  · have hbe : key b ≤ key e := hprop b (List.mem_cons_self _ _)
                    omega
                  · exact hprop x (List.mem_cons_of_mem _ hx'')
            | false =>
                have hprop := (allLe_false_iff key (b :: cs) e).mp hpe
                symm
                rw [allLe_false_iff]
                obtain ⟨x, hx, hxk⟩ := hprop
                rcases List.mem_cons.mp hx with rfl | hx'
                · exact ⟨x, List.mem_cons_self _ _, hxk⟩
                · exact ⟨x, List.mem_cons_of_mem _ (List.mem_cons_of_mem _ hx'), hxk⟩

theorem pyMaxBy_eq_specSelect (key : String → ℕ) (l : List String) :
    pyMaxBy key l = specSelect key l := by
  cases l with
  | nil => rfl
  | cons x xs =>
      rw [pyMaxBy, specSelect]
      exact foldl_max_eq_find? key xs x

theorem tokenize_map_length (l : List Char) :
    (tokenize l).map String.length = List.replicate (l.length / 3) 3 := by
  rw [tokenize_eq, List.map_map]
  rw [List.eq_replicate_iff]
  constructor
  · simp
  · intro b hb
    rw [List.mem_map] at hb
    obtain ⟨k, hk, hkb⟩ := hb
    rw [List.mem_range] at hk
    rw [← hkb]
    simp only [Function.comp, mk_length, List.length_take, List.length_drop]
    omega

theorem analyze_brain_congr (sequence organism : String) (b1 b2 : Brain)
    (h1 : b1.structural_rules = b2.structural_rules)
    (h2 : b1.categories = b2.categories) :
    analyze_grammar_with_brain sequence organism (some b1) =
      analyze_grammar_with_brain sequence organism (some b2) := by
  simp only [analyze_grammar_with_brain]
  rw [h1, h2]

theorem anomalies_type_replicate (codons : List String)
    (rules : List (String × List String)) :
    (transitionAnomaliesSpec codons rules).map Anomaly.type
      = List.replicate (transitionAnomaliesSpec codons rules).length transTag := by
  rw [List.eq_replicate_iff]
  refine ⟨by simp, ?_⟩
  intro b hb
  rw [List.mem_map] at hb
  obtain ⟨a, ha, rfl⟩ := hb
  exact anomalies_type _ _ a ha

/-- Claim C1, counterexample.  The claim asserts that with the grammar
(AAA AAA ↦ 5, AAA CCC ↦ 1) loaded, analyzing AAACCCAAA reports exactly one
anomaly, at starting position 1.  On the code, a brain holding exactly that
grammar (and empty structural rules) yields two anomalies, at positions 0
and 1: the analyzer checks codon transitions against structural_rules and
never consults the subroutine-frequency grammar. -/
theorem spec_c1_counterexample :
    brainScenario.full_grammar = [("AAA AAA", 5), ("AAA CCC", 1)] ∧
    (anomaliesOf (analyze_grammar_with_brain "AAACCCAAA" "ecoli" (some brainScenario))).map
      Anomaly.position = [0, 1] ∧
    ¬ (anomaliesOf
        (analyze_grammar_with_brain "AAACCCAAA" "ecoli" (some brainScenario))).length = 1 := by
  decide

/-- Claim C1, amended.  For every input sequence and every loaded brain, the
anomalies of the grammar analysis are exactly the consecutive-codon
transitions whose successor codon is absent from the structural_rules entry
of the current codon: one anomaly per position i with a successor, carrying
the subroutine codon -> next codon and the fixed transition label.  The
subroutine-frequency grammar plays no part. -/
theorem spec_c1_theorem (sequence organism : String) (b : Brain) :
    anomaliesOf (analyze_grammar_with_brain sequence organism (some b)) =
      transitionAnomaliesSpec (tokenize (normalize sequence)) b.structural_rules :=
  anomaliesOf_analyze sequence organism b

/-- Claim C2, counterexample.  The claim asserts the redundancy-collapse
discipline: anomalies sharing a length label are windows of a common length
of at least two codons, and an accepted candidate covers its span, so two
reported anomalies with the same label must start at least two positions
apart.  On the code, a loaded brain with no structural rules yields, for
AAAAAAAAA, two same-label anomalies at the adjacent positions 0 and 1. -/
theorem spec_c2_counterexample :
    (anomaliesOf (analyze_grammar_with_brain "AAAAAAAAA" "ecoli" (some brainEmpty))).map
      Anomaly.position = [0, 1] ∧
    ¬ claimC2Collapse (analyze_grammar_with_brain "AAAAAAAAA" "ecoli" (some brainEmpty)) := by
  decide

/-- Claim C2, amended.  The returned anomalies are sorted by starting
position strictly ascending, and every anomaly carries the single
transition label (no window-length labels exist, and overlapping anomalies
at adjacent positions are all reported: no redundancy collapse happens). -/
theorem spec_c2_theorem (sequence organism : String) (brain? : Option Brain) :
    (anomaliesOf (analyze_grammar_with_brain sequence organism brain?)).Pairwise
      (fun a b => a.position < b.position) ∧
    (anomaliesOf (analyze_grammar_with_brain sequence organism brain?)).map Anomaly.type
      = List.replicate
          (anomaliesOf (analyze_grammar_with_brain sequence organism brain?)).length
          transTag := by
  cases brain? with
  | none => exact ⟨List.Pairwise.nil, rfl⟩
  | some b =>
      rw [anomaliesOf_analyze]
      exact ⟨anomalies_sorted _ _, anomalies_type_replicate _ _⟩

/-- Claim C3, counterexample.  The claim asserts that a missing grammar
yields an empty anomaly result rather than an error value.  On the code,
the result for an unloaded organism is the error dict, which carries no
anomaly list at all. -/
theorem spec_c3_counterexample :
    analyze_grammar_with_brain "ACGTGA" "yeast" none =
      .err "El \"Cerebro\" para el organismo yeast no está cargado." ∧
    isErr (analyze_grammar_with_brain "ACGTGA" "yeast" none) = true := by
  decide

/-- Claim C3, amended.  For every sequence and organism whose brain is not
loaded, the analysis returns the structured error dict naming the organism
(no raised fault, no anomaly list); callers distinguish unavailability from
empty findings by the presence of the error entry. -/
theorem spec_c3_theorem (sequence organism : String) :
    analyze_grammar_with_brain sequence organism none =
      .err ("El \"Cerebro\" para el organismo " ++ organism ++ " no está cargado.") ∧
    isErr (analyze_grammar_with_brain sequence organism none) = true :=
  ⟨rfl, rfl⟩

/-- Claim C4, counterexample.  The claim asserts that codon GCT yields the
pause 206.9; the code computes 159.7 for GCT (206.9 is the pause of a codon
with one A, one C and one G, such as GCA). -/
theorem spec_c4_counterexample :
    (analyze_kinetics "GCT").map KineticEntry.pause_ms = [159.7] ∧
    (159.7 : ℚ) ≠ 206.9 :=
  ⟨kinetics_gct, by norm_num⟩

/-- Claim C4, amended.  For every input string the kinetic profile has one
entry per codon token of the normalised input, in input order and without
filtering, indexed from 0, and each pause equals
(countA*0.481 + countC*0.334 + countG*0.654 + countT*0.009)*100 + 60
rounded to two decimals; the codon GCT yields pause 159.7. -/
theorem spec_c4_theorem (sequence : String) :
    (analyze_kinetics sequence).map KineticEntry.codon = tokenize (normalize sequence) ∧
    (analyze_kinetics sequence).map KineticEntry.codon_index
      = List.range (tokenize (normalize sequence)).length ∧
    (analyze_kinetics sequence).map KineticEntry.pause_ms
      = (tokenize (normalize sequence)).map (fun codon =>
          roundTo2 (((codon.toList.count 'A' : ℚ) * 0.481
            + (codon.toList.count 'C' : ℚ) * 0.334
            + (codon.toList.count 'G' : ℚ) * 0.654
            + (codon.toList.count 'T' : ℚ) * 0.009) * 100 + 60)) ∧
    (analyze_kinetics "GCT").map KineticEntry.pause_ms = [159.7] :=
  ⟨analyze_kinetics_map_codon sequence, analyze_kinetics_map_index sequence,
    analyze_kinetics_map_pause sequence, kinetics_gct⟩

/-- Claim C5.  The optimizer derives the single-codon frequency table by
adding each subroutine key count once per codon token the key contains;
max with a key function returns the first element attaining the maximal
key, that is the synonymous codon of maximal derived frequency with ties
broken by first occurrence in the codon table list; and on the concrete
scenario (derived frequencies AAA ↦ 5, AAG ↦ 1, K ↦ [AAG, AAA]) the
protein K optimizes to AAA. -/
theorem spec_c5_theorem :
    (∀ (grammar : List (String × ℕ)) (c : String),
      codonFreq grammar c
        = (grammar.map (fun kv => kv.2 * (splitSpaces kv.1).count c)).sum) ∧
    (∀ (key : String → ℕ) (l : List String), pyMaxBy key l = specSelect key l) ∧
    codonFreq brainK.full_grammar "AAA" = 5 ∧
    codonFreq brainK.full_grammar "AAG" = 1 ∧
    tableGet 'K' = ["AAG", "AAA"] ∧
    optimize_sequence "K" (some brainK) = "AAA" :=
  ⟨codonFreq_eq_sum, pyMaxBy_eq_specSelect, by decide, by decide, by decide, by decide⟩

/-- Claim C6.  For every protein input and every loaded brain, the length of
the optimized DNA equals three times the number of upper-cased input
symbols present in the codon table; unrecognised symbols contribute
nothing. -/
theorem spec_c6_theorem (protein_sequence : String) (b : Brain) :
    (optimize_sequence protein_sequence (some b)).length =
      3 * (protein_sequence.toList.map Char.toUpper).countP
        (fun aa => (CODON_TABLE.lookup aa).isSome) := by
  show ((protein_sequence.toList.map Char.toUpper).foldl
    (optimizeStep (codonFreq b.full_grammar)) "").length = _
  rw [optimize_foldl_length]
  simp

/-- Claim C7.  For every string input (empty, length not a multiple of 3, or
with characters outside the alphabet) each core operation returns a value
and no instrumented runtime fault is reachable: the instrumented analyzer
and optimizer always return ok of the plain result for every brain state,
and the kinetic profile is defined on every string with one entry per
complete codon. -/
theorem spec_c7_theorem (sequence organism protein_sequence : String)
    (brain? : Option Brain) :
    analyze_grammar_with_brainE sequence organism brain?
      = .ok (analyze_grammar_with_brain sequence organism brain?) ∧
    optimize_sequenceE protein_sequence brain?
      = .ok (optimize_sequence protein_sequence brain?) ∧
    (analyze_kinetics sequence).length = sequence.length / 3 :=
  ⟨analyze_grammar_with_brainE_ok sequence organism brain?,
    optimize_sequenceE_ok protein_sequence brain?,
    analyze_kinetics_length sequence⟩

/-- Claim C8.  Tokenization yields exactly len / 3 codons (integer
division), all of length 3, the k-th being the slice starting at 3*k of the
input; the empty input tokenizes to the empty list, and through the
length-preserving normalisation the same count holds for every raw string
input. -/
theorem spec_c8_theorem (l : List Char) (s : String) :
    (tokenize l).length = l.length / 3 ∧
    (tokenize l).map String.length = List.replicate (l.length / 3) 3 ∧
    tokenize l
      = (List.range (l.length / 3)).map (fun k => String.mk ((l.drop (3 * k)).take 3)) ∧
    tokenize ([] : List Char) = [] ∧
    (tokenize (normalize s)).length = s.length / 3 :=
  ⟨tokenize_length l, tokenize_map_length l, tokenize_eq l, rfl,
    by rw [tokenize_length, normalize_length]⟩

/-- Claim C9.  The kinetic profile is invariant under the letter case of the
input (any two strings with the same upper-casing get equal profiles, in
particular the lower-cased variant) and under the T/U re-encoding in either
direction. -/
theorem spec_c9_theorem (s t : String)
    (h : s.toList.map Char.toUpper = t.toList.map Char.toUpper) :
    analyze_kinetics s = analyze_kinetics t ∧
    analyze_kinetics (String.mk (s.toList.map Char.toLower)) = analyze_kinetics s ∧
    analyze_kinetics (String.mk (s.toList.map tToU)) = analyze_kinetics s ∧
    analyze_kinetics (String.mk (s.toList.map replaceUT)) = analyze_kinetics s :=
  ⟨kinetics_congr (normalize_eq_of_upper_eq h),
    kinetics_congr (normalize_map_char Char.toLower normChar_toLower s),
    kinetics_congr (normalize_map_char tToU normChar_tToU s),
    kinetics_congr (normalize_map_char replaceUT normChar_replaceUT s)⟩

/-- Claim C9, witness at the concrete case variants acGu and AcGU. -/
theorem spec_c9_witness :
    analyze_kinetics "acGu" = analyze_kinetics "AcGU" ∧
    analyze_kinetics (String.mk ("acGu".toList.map Char.toLower)) = analyze_kinetics "acGu" ∧
    analyze_kinetics (String.mk ("acGu".toList.map tToU)) = analyze_kinetics "acGu" ∧
    analyze_kinetics (String.mk ("acGu".toList.map replaceUT)) = analyze_kinetics "acGu" :=
  spec_c9_theorem "acGu" "AcGU" (by decide)

/-- Claim C10.  The grammar analysis depends only on the structural_rules
and categories entries of the loaded brain: two brains agreeing on those
two entries produce identical results (anomalies and inferred structure) on
every input, whatever their subroutine-frequency grammars. -/
theorem spec_c10_theorem (sequence organism : String) (b1 b2 : Brain)
    (h1 : b1.structural_rules = b2.structural_rules)
    (h2 : b1.categories = b2.categories) :
    analyze_grammar_with_brain sequence organism (some b1) =
      analyze_grammar_with_brain sequence organism (some b2) :=
  analyze_brain_congr sequence organism b1 b2 h1 h2

/-- Claim C10, witness: two loaded brains with equal rules and categories
but different full grammars give identical analyses of AAACCCGGG. -/
theorem spec_c10_witness :
    brainRules1.structural_rules = brainRules2.structural_rules ∧
    brainRules1.categories = brainRules2.categories ∧
    brainRules1.full_grammar ≠ brainRules2.full_grammar ∧
    analyze_grammar_with_brain "AAACCCGGG" "ecoli" (some brainRules1) =
      analyze_grammar_with_brain "AAACCCGGG" "ecoli" (some brainRules2) :=
  ⟨rfl, rfl, by decide,
    spec_c10_theorem "AAACCCGGG" "ecoli" brainRules1 brainRules2 rfl rfl⟩

end TIE
